import Mathlib

/-!
Verification development for the cryojax image-formation core.

Images and volumes are embedded as nested lists (row-major, matching the
numpy array layout used by the source).  Python/numpy slicing `xs[a:b]`
(step 1, possibly negative bounds) is embedded by `pySlice`.  Machine
floats are modelled by real numbers; complex images by complex numbers.
-/

namespace Cryojax

/-- Effective bound of a Python slice endpoint `a` for a sequence of length
`N`: negative indices count from the end, and bounds are clamped to
`[0, N]`. -/
def sliceBound (N : ℕ) (a : ℤ) : ℕ :=
  if a < 0 then ((N : ℤ) + a).toNat else min a.toNat N

/-- Python slice `xs[a:b]` with step 1. -/
def pySlice (xs : List α) (a b : ℤ) : List α :=
  (xs.take (sliceBound xs.length b)).drop (sliceBound xs.length a)

/-- Number of rows of a nested-list image (numpy `shape[0]`). -/
def nRows (image : List (List α)) : ℕ := image.length

/-- Number of columns of a nested-list image (numpy `shape[1]`); nested
lists used here are rectangular, so the first row's length is the width. -/
def nCols (image : List (List α)) : ℕ := (image.headD []).length

/-- Rectangularity predicate tying a nested list to a numpy shape. -/
def HasShape (image : List (List α)) (N1 N2 : ℕ) : Prop :=
  image.length = N1 ∧ ∀ r ∈ image, r.length = N2

/-- Embedding of `crop_to_shape` (2D branch of `_edges.py`): center-crop to
`(h, w)` using slices `[c - s//2 : c + s//2 + s%2]` per axis around the
center `c = N//2`.  The rank guards of the source are satisfied by the 2D
representation. -/
def crop_to_shape (image : List (List α)) (h w : ℕ) : List (List α) :=
  let yc : ℤ := (nRows image : ℤ) / 2
  let xc : ℤ := (nCols image : ℤ) / 2
  (pySlice image (yc - (h : ℤ) / 2) (yc + (h : ℤ) / 2 + (h : ℤ) % 2)).map
    (fun r => pySlice r (xc - (w : ℤ) / 2) (xc + (w : ℤ) / 2 + (w : ℤ) % 2))

/-- Embedding of `pad_to_shape` (2D branch of `_edges.py`) with constant
fill (the `jnp.pad` default mode): per axis the deficit `pad` is split as
`(pad//2, pad//2 + pad%2)`, the extra unit going to the high side. -/
def pad_to_shape (image : List (List α)) (h w : ℕ) (fill : α) : List (List α) :=
  let Ny := nRows image
  let Nx := nCols image
  let ypad := h - Ny
  let xpad := w - Nx
  let padRow : List α → List α := fun r =>
    List.replicate (xpad / 2) fill ++ r ++ List.replicate (xpad / 2 + xpad % 2) fill
  List.replicate (ypad / 2) (List.replicate w fill) ++ image.map padRow ++
    List.replicate (ypad / 2 + ypad % 2) (List.replicate w fill)

/-- Embedding of `resize_with_crop_or_pad` (`_edges.py`): per-axis compare
current size `(N1, N2)` with target `(M1, M2)`; crop when both axes shrink,
pad when both grow, and on mixed requests crop the shrinking axis first and
then pad. -/
def resize_with_crop_or_pad (image : List (List α)) (M1 M2 : ℕ) (fill : α) :
    List (List α) :=
  let N1 := nRows image
  let N2 := nCols image
  if M1 ≤ N1 ∧ M2 ≤ N2 then crop_to_shape image M1 M2
  else if N1 ≤ M1 ∧ N2 ≤ M2 then pad_to_shape image M1 M2 fill
  else if N1 ≤ M1 ∧ M2 ≤ N2 then
    pad_to_shape (crop_to_shape image N1 M2) M1 M2 fill
  else
    pad_to_shape (crop_to_shape image M1 N2) M1 M2 fill

/-- Embedding of `crop_to_shape_with_center` (`_edges.py`).  Slice bounds
are exactly those of the source, including its clamping of the lower
bounds to `0` and of the upper bounds to `dim - 1`, and its use of the
`y`-quantities in the second axis's upper bound and vice versa.  The
returned flag records whether the non-fatal shape-mismatch warning is
emitted.  The function is total: every input yields a result. -/
def crop_to_shape_with_center (image : List (List α)) (h w xc yc : ℕ) :
    List (List α) × Bool :=
  let Ny : ℤ := (nRows image : ℤ)
  let Nx : ℤ := (nCols image : ℤ)
  let x0 : ℤ := max ((xc : ℤ) - (w : ℤ) / 2) 0
  let y0 : ℤ := max ((yc : ℤ) - (h : ℤ) / 2) 0
  let xn : ℤ := min ((yc : ℤ) + (h : ℤ) / 2 + (h : ℤ) % 2) (Nx - 1)
  let yn : ℤ := min ((xc : ℤ) + (w : ℤ) / 2 + (w : ℤ) % 2) (Ny - 1)
  let cropped := (pySlice image y0 yn).map (fun r => pySlice r x0 xn)
  (cropped, !(decide (nRows cropped = h ∧ nCols cropped = w)))


lemma sliceBound_natCast (N k : ℕ) : sliceBound N (k : ℤ) = min k N := by
  simp [sliceBound]

lemma pySlice_natCast (xs : List α) (a b : ℕ) :
    pySlice xs (a : ℤ) (b : ℤ) = (xs.take b).drop a := by
  rw [pySlice, sliceBound_natCast, sliceBound_natCast]
  rcases le_total b xs.length with hb | hb
  · rw [min_eq_left hb]
    rcases le_total a xs.length with ha | ha
    · rw [min_eq_left ha]
    · rw [min_eq_right ha, List.drop_eq_nil_of_le, List.drop_eq_nil_of_le]
      · exact le_trans (by simp) ha
      · simp
  · rw [min_eq_right hb, List.take_length, List.take_of_length_le hb]
    rcases le_total a xs.length with ha | ha
    · rw [min_eq_left ha]
    · rw [min_eq_right ha, List.drop_eq_nil_of_le le_rfl, List.drop_eq_nil_of_le ha]

lemma hasShape_nCols (image : List (List α)) (N1 N2 : ℕ) (h : HasShape image N1 N2)
    (hpos : 0 < N1) : nCols image = N2 := by
  obtain ⟨hlen, hrows⟩ := h
  cases image with
  | nil => simp at hlen; omega
  | cons r rest => exact hrows r (by simp)

lemma crop_to_shape_eq_take_drop (image : List (List α)) (h w : ℕ)
    (hh : h ≤ nRows image) (hw : w ≤ nCols image) :
    crop_to_shape image h w =
      ((image.take (nRows image / 2 + h / 2 + h % 2)).drop (nRows image / 2 - h / 2)).map
        (fun r => (r.take (nCols image / 2 + w / 2 + w % 2)).drop (nCols image / 2 - w / 2)) := by
  have c1 : ((nRows image : ℤ)) / 2 - (h : ℤ) / 2 = ((nRows image / 2 - h / 2 : ℕ) : ℤ) := by
    omega
  have c2 : ((nRows image : ℤ)) / 2 + (h : ℤ) / 2 + (h : ℤ) % 2 =
      ((nRows image / 2 + h / 2 + h % 2 : ℕ) : ℤ) := by omega
  have c3 : ((nCols image : ℤ)) / 2 - (w : ℤ) / 2 = ((nCols image / 2 - w / 2 : ℕ) : ℤ) := by
    omega
  have c4 : ((nCols image : ℤ)) / 2 + (w : ℤ) / 2 + (w : ℤ) % 2 =
      ((nCols image / 2 + w / 2 + w % 2 : ℕ) : ℤ) := by omega
  simp only [crop_to_shape, c1, c2, c3, c4, pySlice_natCast]
lemma pad_to_shape_hasShape (image : List (List α)) (N1 N2 h w : ℕ) (fill : α)
    (hs : HasShape image N1 N2) (h1 : N1 ≤ h) (h2 : N2 ≤ w) :
    HasShape (pad_to_shape image h w fill) h w := by
  obtain ⟨hlen, hrows⟩ := hs
  constructor
  · simp [pad_to_shape, hlen, nRows]
    omega
  · intro r hr
    simp only [pad_to_shape, List.mem_append, List.mem_replicate] at hr
    rcases hr with (hr | hr) | hr
    · simp [hr.2]
    · obtain ⟨r0, hr0, hpad⟩ := List.mem_map.mp hr
      have hc : nCols image = N2 := by
        cases image with
        | nil => simp at hr0
        | cons x rest => exact hrows x (by simp)
      have hr0len : r0.length = N2 := hrows r0 hr0
      simp [← hpad, hc, hr0len]
      omega
    · simp [hr.2]

lemma take_drop_middle_block (A B C : List α) (a n : ℕ) (hA : A.length = a)
    (hB : B.length = n) : ((A ++ B ++ C).take (a + n)).drop a = B := by
  subst hA hB
  rw [List.append_assoc, List.take_append, List.take_left, List.drop_left]

/-- C5 (amended): for every square image with odd dimensions and every
strictly larger target shape whose dimensions are also odd,
`crop_to_shape (pad_to_shape img bigger) img.shape` recovers `img`
exactly. -/
theorem crop_pad_round_trip (image : List (List α)) (n m1 m2 : ℕ) (fill : α)
    (hshape : HasShape image n n) (hn : Odd n) (hm1 : Odd m1) (hm2 : Odd m2)
    (h1 : n < m1) (h2 : n < m2) :
    crop_to_shape (pad_to_shape image m1 m2 fill) n n = image := by
  have hP : HasShape (pad_to_shape image m1 m2 fill) m1 m2 :=
    pad_to_shape_hasShape image n n m1 m2 fill hshape h1.le h2.le
  have hrowsP : nRows (pad_to_shape image m1 m2 fill) = m1 := hP.1
  have hcolsP : nCols (pad_to_shape image m1 m2 fill) = m2 :=
    hasShape_nCols _ m1 m2 hP (by omega)
  rw [crop_to_shape_eq_take_drop _ n n (by omega) (by omega), hrowsP, hcolsP]
  have hrows : nRows image = n := hshape.1
  have hcols : ∀ r ∈ image, r.length = n := hshape.2
  obtain ⟨p, hp⟩ := hn
  obtain ⟨q1, hq1⟩ := hm1
  obtain ⟨q2, hq2⟩ := hm2
  simp only [pad_to_shape]
  rw [show m1 / 2 + n / 2 + n % 2 = (m1 - nRows image) / 2 + n by omega,
    show m1 / 2 - n / 2 = (m1 - nRows image) / 2 by omega,
    take_drop_middle_block _ _ _ _ n (by simp) (by simpa using hshape.1)]
  rw [List.map_map]
  have hid : ∀ r ∈ image, ((fun r => (r.take (m2 / 2 + n / 2 + n % 2)).drop
      (m2 / 2 - n / 2)) ∘ fun r =>
        List.replicate ((m2 - nCols image) / 2) fill ++ r ++
          List.replicate ((m2 - nCols image) / 2 + (m2 - nCols image) % 2) fill) r = r := by
    intro r hr
    have hc : nCols image = n := hasShape_nCols image n n ⟨hrows, hcols⟩ (by omega)
    simp only [Function.comp]
    rw [show m2 / 2 + n / 2 + n % 2 = (m2 - nCols image) / 2 + n by omega,
      show m2 / 2 - n / 2 = (m2 - nCols image) / 2 by omega,
      take_drop_middle_block _ _ _ _ n (by simp) (hcols r hr)]
  rw [List.map_congr_left hid]
  simp
/-- Entry of a nested-list image at row `i`, column `j`, with default `d`. -/
def getEntry (L : List (List α)) (i j : ℕ) (d : α) : α := (L.getD i []).getD j d

lemma getD_append_left (xs ys : List α) (i : ℕ) (h : i < xs.length) (d : α) :
    (xs ++ ys).getD i d = xs.getD i d := by
  simp [List.getD_eq_getElem?_getD, List.getElem?_append_left h]

lemma getD_append_right (xs ys : List α) (i : ℕ) (h : xs.length ≤ i) (d : α) :
    (xs ++ ys).getD i d = ys.getD (i - xs.length) d := by
  simp [List.getD_eq_getElem?_getD, List.getElem?_append_right h]

lemma getD_replicate (n : ℕ) (a : α) (i : ℕ) (d : α) :
    (List.replicate n a).getD i d = if i < n then a else d := by
  split_ifs with h <;>
    simp [List.getD_eq_getElem?_getD, List.getElem?_replicate, h]

lemma getD_map (f : α → β) (l : List α) (i : ℕ) (h : i < l.length) (d : β) (d2 : α) :
    (l.map f).getD i d = f (l.getD i d2) := by
  simp [List.getD_eq_getElem?_getD, List.getElem?_map, List.getElem?_eq_getElem h,
    List.getD_eq_getElem?_getD]

lemma getD_take_drop (xs : List α) (a b i : ℕ) (hi : a + i < b) (d : α) :
    ((xs.take b).drop a).getD i d = xs.getD (a + i) d := by
  simp only [List.getD_eq_getElem?_getD, List.getElem?_drop, List.getElem?_take]
  rw [if_pos hi]

lemma getD_mem_of_lt (l : List α) (i : ℕ) (h : i < l.length) (d : α) : l.getD i d ∈ l := by
  rw [List.getD_eq_getElem?_getD, List.getElem?_eq_getElem h]
  exact List.getElem_mem h

lemma crop_to_shape_entry (L : List (List α)) (N1 N2 h w : ℕ) (hs : HasShape L N1 N2)
    (hh : h ≤ N1) (hw : w ≤ N2) (hpos : 0 < N1) (i j : ℕ) (hi : i < h) (hj : j < w)
    (d : α) :
    getEntry (crop_to_shape L h w) i j d =
      getEntry L (N1 / 2 - h / 2 + i) (N2 / 2 - w / 2 + j) d := by
  have hrows : nRows L = N1 := hs.1
  have hcols : nCols L = N2 := hasShape_nCols L N1 N2 hs hpos
  rw [crop_to_shape_eq_take_drop L h w (by omega) (by omega), hrows, hcols]
  have hlen : ((L.take (N1 / 2 + h / 2 + h % 2)).drop (N1 / 2 - h / 2)).length = h := by
    simp [List.length_take, List.length_drop, hs.1]
    omega
  unfold getEntry
  rw [getD_map _ _ i (by omega) [] [], getD_take_drop _ _ _ _ (by omega)]
  have hrmem : L.getD (N1 / 2 - h / 2 + i) [] ∈ L :=
    getD_mem_of_lt L _ (by simp only [hs.1]; omega) []
  have hrlen : (L.getD (N1 / 2 - h / 2 + i) []).length = N2 := hs.2 _ hrmem
  rw [getD_take_drop _ _ _ _ (by omega)]

lemma pad_to_shape_entry (L : List (List α)) (N1 N2 h w : ℕ) (fill : α)
    (hs : HasShape L N1 N2) (hc : nCols L = N2) (i j : ℕ) :
    getEntry (pad_to_shape L h w fill) i j fill = fill ∨
      ((h - N1) / 2 ≤ i ∧ i < (h - N1) / 2 + N1 ∧ (w - N2) / 2 ≤ j ∧
        j < (w - N2) / 2 + N2 ∧
        getEntry (pad_to_shape L h w fill) i j fill =
          getEntry L (i - (h - N1) / 2) (j - (w - N2) / 2) fill) := by
  have hrows : nRows L = N1 := hs.1
  unfold getEntry pad_to_shape
  rw [hrows, hc]
  by_cases hilow : i < (h - N1) / 2
  · left
    rw [getD_append_left _ _ i (by simp; omega), getD_append_left _ _ i (by simp; omega),
      getD_replicate]
    rw [if_pos hilow, getD_replicate]
    split_ifs <;> rfl
  · by_cases hihigh : i < (h - N1) / 2 + N1
    · -- the row comes from the original image, padded on both sides
      rw [getD_append_left _ _ i (by simp [hs.1]; omega),
        getD_append_right _ _ i (by simp; omega)]
      simp only [List.length_replicate]
      rw [getD_map _ _ _ (by simp only [hs.1]; omega) [] []]
      have hrmem : L.getD (i - (h - N1) / 2) [] ∈ L :=
        getD_mem_of_lt L _ (by simp only [hs.1]; omega) []
      have hrlen : (L.getD (i - (h - N1) / 2) []).length = N2 := hs.2 _ hrmem
      by_cases hjlow : j < (w - N2) / 2
      · left
        rw [getD_append_left _ _ j
            (by simp only [List.length_append, List.length_replicate, hrlen]; omega),
          getD_append_left _ _ j (by simp only [List.length_replicate]; omega),
          getD_replicate, if_pos hjlow]
      · by_cases hjhigh : j < (w - N2) / 2 + N2
        · right
          refine ⟨by omega, by omega, by omega, by omega, ?_⟩
          rw [getD_append_left _ _ j
              (by simp only [List.length_append, List.length_replicate, hrlen]; omega),
            getD_append_right _ _ j (by simp only [List.length_replicate]; omega)]
          simp only [List.length_replicate]
        · left
          rw [getD_append_right _ _ j
              (by simp only [List.length_append, List.length_replicate, hrlen]; omega),
            getD_replicate]
          split_ifs <;> rfl
    · left
      rw [getD_append_right _ _ i (by simp [hs.1]; omega), getD_replicate]
      split_ifs with hcase
      · rw [getD_replicate]; split_ifs <;> rfl
      · rfl
lemma crop_to_shape_hasShape (L : List (List α)) (N1 N2 h w : ℕ) (hs : HasShape L N1 N2)
    (hh : h ≤ N1) (hw : w ≤ N2) (hpos : 0 < N1) :
    HasShape (crop_to_shape L h w) h w := by
  have hrows : nRows L = N1 := hs.1
  have hcols : nCols L = N2 := hasShape_nCols L N1 N2 hs hpos
  rw [crop_to_shape_eq_take_drop L h w (by omega) (by omega), hrows, hcols]
  constructor
  · simp [List.length_take, List.length_drop, hs.1]
    omega
  · intro r hr
    obtain ⟨r0, hr0, hslice⟩ := List.mem_map.mp hr
    have hr0mem : r0 ∈ L := List.mem_of_mem_take (List.mem_of_mem_drop hr0)
    have hr0len : r0.length = N2 := hs.2 r0 hr0mem
    rw [← hslice]
    simp [List.length_take, List.length_drop, hr0len]
    omega

lemma pad_to_shape_nil_entry (h w : ℕ) (fill : α) (i j : ℕ) :
    getEntry (pad_to_shape ([] : List (List α)) h w fill) i j fill = fill := by
  unfold getEntry pad_to_shape
  simp only [nRows, nCols, List.length_nil, List.headD_nil, List.map_nil, List.nil_append,
    List.append_nil, ← List.replicate_add]
  rw [getD_replicate]
  split_ifs
  · rw [getD_replicate]; split_ifs <;> rfl
  · rfl

/-- C4: on a mixed resize request the source crops the shrinking axis before padding:
every pixel of the output is either the pad fill value or an original pixel whose
index on the shrinking axis lies inside the central crop window — the window that
cropping after padding would also have kept — so no cropped-away pixel appears. -/
theorem resize_mixed_entry (image : List (List α)) (N1 N2 M1 M2 : ℕ) (fill : α)
    (hs : HasShape image N1 N2) :
    (N1 < M1 → M2 < N2 → ∀ i j, i < M1 → j < M2 →
      getEntry (resize_with_crop_or_pad image M1 M2 fill) i j fill = fill ∨
      ∃ i2 j2, i2 < N1 ∧ N2 / 2 - M2 / 2 ≤ j2 ∧ j2 < N2 / 2 - M2 / 2 + M2 ∧
        getEntry (resize_with_crop_or_pad image M1 M2 fill) i j fill =
          getEntry image i2 j2 fill) ∧
    (M1 < N1 → N2 < M2 → ∀ i j, i < M1 → j < M2 →
      getEntry (resize_with_crop_or_pad image M1 M2 fill) i j fill = fill ∨
      ∃ i2 j2, N1 / 2 - M1 / 2 ≤ i2 ∧ i2 < N1 / 2 - M1 / 2 + M1 ∧ j2 < N2 ∧
        getEntry (resize_with_crop_or_pad image M1 M2 fill) i j fill =
          getEntry image i2 j2 fill) := by
  have hrows : nRows image = N1 := hs.1
  constructor
  · intro hgrow hshrink i j hi hj
    rcases Nat.eq_zero_or_pos N1 with h0 | h0
    · left
      have himg : image = [] := List.length_eq_zero.mp (hs.1.trans h0)
      subst himg
      have hb2 : resize_with_crop_or_pad ([] : List (List α)) M1 M2 fill =
          pad_to_shape ([] : List (List α)) M1 M2 fill := by
        simp only [resize_with_crop_or_pad, nRows, nCols, List.length_nil, List.headD_nil,
          List.length_nil]
        rw [if_neg (by omega), if_pos (by omega)]
      rw [hb2, pad_to_shape_nil_entry]
    · have hcolsI : nCols image = N2 := hasShape_nCols image N1 N2 hs h0
      have hbranch : resize_with_crop_or_pad image M1 M2 fill =
          pad_to_shape (crop_to_shape image N1 M2) M1 M2 fill := by
        unfold resize_with_crop_or_pad
        rw [hrows, hcolsI, if_neg (by omega), if_neg (by omega), if_pos (by omega)]
      rw [hbranch]
      have hC : HasShape (crop_to_shape image N1 M2) N1 M2 :=
        crop_to_shape_hasShape image N1 N2 N1 M2 hs le_rfl (by omega) h0
      have hCc : nCols (crop_to_shape image N1 M2) = M2 := hasShape_nCols _ N1 M2 hC h0
      rcases pad_to_shape_entry (crop_to_shape image N1 M2) N1 M2 M1 M2 fill hC hCc
          i j with hfill | ⟨hi1, hi2, hj1, hj2, heq⟩
      · exact Or.inl hfill
      · right
        rw [heq, crop_to_shape_entry image N1 N2 N1 M2 hs le_rfl (by omega) h0 _ _
          (by omega) (by omega)]
        exact ⟨N1 / 2 - N1 / 2 + (i - (M1 - N1) / 2),
          N2 / 2 - M2 / 2 + (j - (M2 - M2) / 2), by omega, by omega, by omega, rfl⟩
  · intro hshrink hgrow i j hi hj
    have h0 : 0 < N1 := by omega
    rcases Nat.eq_zero_or_pos M1 with hM0 | hM0
    · omega
    · have hcolsI : nCols image = N2 := hasShape_nCols image N1 N2 hs h0
      have hbranch : resize_with_crop_or_pad image M1 M2 fill =
          pad_to_shape (crop_to_shape image M1 N2) M1 M2 fill := by
        unfold resize_with_crop_or_pad
        rw [hrows, hcolsI, if_neg (by omega), if_neg (by omega), if_neg (by omega)]
      rw [hbranch]
      have hC : HasShape (crop_to_shape image M1 N2) M1 N2 :=
        crop_to_shape_hasShape image N1 N2 M1 N2 hs (by omega) le_rfl h0
      have hCc : nCols (crop_to_shape image M1 N2) = N2 := hasShape_nCols _ M1 N2 hC hM0
      rcases pad_to_shape_entry (crop_to_shape image M1 N2) M1 N2 M1 M2 fill hC hCc
          i j with hfill | ⟨hi1, hi2, hj1, hj2, heq⟩
      · exact Or.inl hfill
      · right
        rw [heq, crop_to_shape_entry image N1 N2 M1 N2 hs (by omega) le_rfl h0 _ _
          (by omega) (by omega)]
        exact ⟨N1 / 2 - M1 / 2 + (i - (M1 - M1) / 2),
          N2 / 2 - N2 / 2 + (j - (M2 - N2) / 2), by omega, by omega, by omega, rfl⟩
/-- C8: centered cropping with a caller-supplied center degrades gracefully: the
slice bound of each axis is clamped into `[0, dim - 1]`, the clipped slice is
returned (the embedding is a total function, mirroring that Python slicing
raises no error for any bounds), and the warning flag is set exactly when the
realized crop shape differs from the requested shape. -/
theorem crop_with_center_graceful (image : List (List α)) (N1 N2 h w xc yc : ℕ)
    (hs : HasShape image N1 N2) (hxc : xc < N2) (hyc : yc < N1) :
    (0 ≤ max ((yc : ℤ) - (h : ℤ) / 2) 0 ∧
        max ((yc : ℤ) - (h : ℤ) / 2) 0 ≤ (N1 : ℤ) - 1) ∧
    (0 ≤ min ((xc : ℤ) + (w : ℤ) / 2 + (w : ℤ) % 2) ((N1 : ℤ) - 1) ∧
        min ((xc : ℤ) + (w : ℤ) / 2 + (w : ℤ) % 2) ((N1 : ℤ) - 1) ≤ (N1 : ℤ) - 1) ∧
    (0 ≤ max ((xc : ℤ) - (w : ℤ) / 2) 0 ∧
        max ((xc : ℤ) - (w : ℤ) / 2) 0 ≤ (N2 : ℤ) - 1) ∧
    (0 ≤ min ((yc : ℤ) + (h : ℤ) / 2 + (h : ℤ) % 2) ((N2 : ℤ) - 1) ∧
        min ((yc : ℤ) + (h : ℤ) / 2 + (h : ℤ) % 2) ((N2 : ℤ) - 1) ≤ (N2 : ℤ) - 1) ∧
    (crop_to_shape_with_center image h w xc yc).1 =
      (pySlice image (max ((yc : ℤ) - (h : ℤ) / 2) 0)
          (min ((xc : ℤ) + (w : ℤ) / 2 + (w : ℤ) % 2) ((N1 : ℤ) - 1))).map
        (fun r => pySlice r (max ((xc : ℤ) - (w : ℤ) / 2) 0)
          (min ((yc : ℤ) + (h : ℤ) / 2 + (h : ℤ) % 2) ((N2 : ℤ) - 1))) ∧
    ((crop_to_shape_with_center image h w xc yc).2 = true ↔
      ¬(nRows (crop_to_shape_with_center image h w xc yc).1 = h ∧
        nCols (crop_to_shape_with_center image h w xc yc).1 = w)) := by
  have hrows : nRows image = N1 := hs.1
  have hcols : nCols image = N2 := hasShape_nCols image N1 N2 hs (by omega)
  refine ⟨⟨by omega, by omega⟩, ⟨by omega, by omega⟩, ⟨by omega, by omega⟩,
    ⟨by omega, by omega⟩, ?_, ?_⟩
  · simp only [crop_to_shape_with_center, hrows, hcols]
  · simp only [crop_to_shape_with_center, Bool.not_eq_true', decide_eq_false_iff_not]
section Masks

variable {α : Type*} [LinearOrderedField α]

/-- Per-axis soft-edge taper of `_compute_square_mask` (`compute_edge_fn` in
the source): `0.5 * (1 + cos(pi * (t - s/2) / w))`.  The cosine and `pi` of
the float library are abstracted as `cosFn` and `piV`. -/
def compute_edge_fn (cosFn : α → α) (piV s w t : α) : α :=
  1 / 2 * (1 + cosFn (piV * (t - s / 2) / w))

/-- Pointwise body of `_compute_square_mask` (`compute_mask_at_coordinate`
in the source), with its exact branch structure. -/
def compute_square_mask_at (cosFn : α → α) (piV s w x y : α) : α :=
  if |x| ≤ s / 2 ∧ |y| ≤ s / 2 then 1
  else if |x| ≤ (s + 2 * w) / 2 ∧ |y| ≤ (s + 2 * w) / 2 then
    if (s / 2 < |x| ∧ |x| < s / 2 + w) ∧ (s / 2 < |y| ∧ |y| < s / 2 + w) then
      compute_edge_fn cosFn piV s w x * compute_edge_fn cosFn piV s w y
    else if s / 2 < |x| ∧ |x| < s / 2 + w then compute_edge_fn cosFn piV s w x
    else compute_edge_fn cosFn piV s w y
  else 0

/-- Embedding of `_compute_square_mask` (`_masks.py`): the pointwise body
vmapped over the coordinate grid. -/
def compute_square_mask (cosFn : α → α) (piV : α) (grid : List (List (α × α)))
    (s w : α) : List (List α) :=
  grid.map (List.map (fun c => compute_square_mask_at cosFn piV s w c.1 c.2))

/-- Radial distance grid `jnp.linalg.norm(coordinate_grid, axis=-1)` with the
square root abstracted as `sqrtFn`. -/
def radialGrid (sqrtFn : α → α) (grid : List (List (α × α))) : List (List α) :=
  grid.map (List.map (fun c => sqrtFn (c.1 ^ 2 + c.2 ^ 2)))

/-- Pointwise body of `_compute_circular_or_spherical_mask` exactly as
written in the source: the cosine branch reads the closed-over full grid
`radial_coordinate_grid`, not the scalar argument `radial_coordinate`, so
under each scalar the broadcast produces a grid-shaped array. -/
def compute_mask_at_coordinate (cosFn : α → α) (piV : α) (rg : List (List α))
    (radius rolloff : α) (r : α) : List (List α) :=
  rg.map (List.map (fun g =>
    if r ≤ radius then 1
    else if radius + rolloff < r then 0
    else 1 / 2 * (1 + cosFn (piV * (g - radius) / rolloff))))

/-- Embedding of `_compute_circular_or_spherical_mask` (`_masks.py`): the
pointwise body vmapped over the radial grid.  Because the body broadcasts
the whole radial grid, the result is grid-of-grids shaped. -/
def compute_circular_or_spherical_mask (sqrtFn cosFn : α → α) (piV : α)
    (grid : List (List (α × α))) (radius rolloff : α) :
    List (List (List (List α))) :=
  let rg := radialGrid sqrtFn grid
  rg.map (List.map (fun r => compute_mask_at_coordinate cosFn piV rg radius rolloff r))

/-- The mask value the specification describes for the circular/spherical
cosine mask at one point of radial distance `r`: `1` inside the radius, `0`
beyond `radius + rolloff`, and the half-cosine taper of `r` itself between. -/
def specCircularMaskValue (cosFn : α → α) (piV radius rolloff r : α) : α :=
  if r ≤ radius then 1
  else if radius + rolloff < r then 0
  else 1 / 2 * (1 + cosFn (piV * (r - radius) / rolloff))

end Masks
/-- C7: the square cosine mask is separable on the soft bands: at a grid entry
lying in both axes' soft bands the value is the product of the two per-axis
tapers; inside the core square it is `1`; outside the padded square it is
`0` (for a nonnegative rolloff width). -/
theorem square_mask_separable {α : Type*} [LinearOrderedField α] (cosFn : α → α)
    (piV s w x y : α) (grid : List (List (α × α))) (i j : ℕ)
    (hi : i < grid.length) (hj : j < (grid.getD i []).length)
    (hxy : (grid.getD i []).getD j (0, 0) = (x, y)) :
    ((compute_square_mask cosFn piV grid s w).getD i []).getD j 0 =
      compute_square_mask_at cosFn piV s w x y ∧
    ((s / 2 < |x| ∧ |x| < s / 2 + w) → (s / 2 < |y| ∧ |y| < s / 2 + w) →
      compute_square_mask_at cosFn piV s w x y =
        compute_edge_fn cosFn piV s w x * compute_edge_fn cosFn piV s w y) ∧
    ((|x| ≤ s / 2 ∧ |y| ≤ s / 2) → compute_square_mask_at cosFn piV s w x y = 1) ∧
    (0 ≤ w → ¬(|x| ≤ (s + 2 * w) / 2 ∧ |y| ≤ (s + 2 * w) / 2) →
      compute_square_mask_at cosFn piV s w x y = 0) := by
  refine ⟨?_, ?_, ?_, ?_⟩
  · unfold compute_square_mask
    rw [getD_map _ _ _ hi [] [], getD_map _ _ _ hj 0 (0, 0), hxy]
  · rintro hx hy
    have heq : (s + 2 * w) / 2 = s / 2 + w := by ring
    unfold compute_square_mask_at
    rw [if_neg (by rintro ⟨h1, -⟩; exact absurd h1 (not_le.mpr hx.1)),
      if_pos (by rw [heq]; exact ⟨hx.2.le, hy.2.le⟩), if_pos ⟨hx, hy⟩]
  · intro hcore
    unfold compute_square_mask_at
    rw [if_pos hcore]
  · intro hw hout
    have heq : (s + 2 * w) / 2 = s / 2 + w := by ring
    unfold compute_square_mask_at
    rw [if_neg, if_neg hout]
    rintro ⟨h1, h2⟩
    exact hout ⟨by rw [heq]; linarith, by rw [heq]; linarith⟩

/-- Witness for `square_mask_separable` on the singleton grid holding the
point `(3/2, 3/2)` with side length `2` and rolloff width `1`: the point
lies in both soft bands, and the mask value is the product of the tapers. -/
theorem square_mask_separable_witness :
    (0 : ℕ) < 1 ∧ ((2:ℚ) / 2 < |(3:ℚ)/2| ∧ |(3:ℚ)/2| < 2 / 2 + 1) ∧
      compute_square_mask_at (fun t => t) (3 : ℚ) 2 1 (3/2) (3/2) =
        compute_edge_fn (fun t => t) (3 : ℚ) 2 1 (3/2) *
          compute_edge_fn (fun t => t) (3 : ℚ) 2 1 (3/2) := by
  have hab : |(3:ℚ)/2| = 3/2 := abs_of_nonneg (by norm_num)
  refine ⟨by decide, by rw [hab]; norm_num, ?_⟩
  exact (square_mask_separable (fun t => t) (3 : ℚ) 2 1 (3/2) (3/2)
      [[((3:ℚ)/2, (3:ℚ)/2)]] 0 0 (by decide) (by decide) (by simp)).2.1
    (by rw [hab]; norm_num) (by rw [hab]; norm_num)
/-- C6 (code bug evidence): on the grid holding the two points `(0,0)` and `(3/2,0)` with radius `1`
and rolloff width `1`, the source's circular-mask body evaluated at the
second point (radial distance `3/2`, inside the taper band) does not produce
the scalar taper value `1/2` of the claim: because the cosine branch reads
the whole closed-over radial grid, the per-point output is a grid-shaped
array `[[0, 1/2]]` whose first entry `0` is the taper of the OTHER point's
radial distance. -/
theorem circular_mask_taper_reads_grid :
    (((compute_circular_or_spherical_mask Real.sqrt Real.cos Real.pi
        [[((0:ℝ), 0), (3/2, 0)]] 1 1).getD 0 []).getD 1 []) = [[0, 1/2]] ∧
    specCircularMaskValue Real.cos Real.pi 1 1 (3/2 : ℝ) = 1/2 ∧
    ((0 : ℝ) ≠ 1/2) := by
  have h0 : Real.sqrt ((0:ℝ)^2 + 0^2) = 0 := by simp
  have h32 : Real.sqrt ((3/2:ℝ)^2 + 0^2) = 3/2 := by
    rw [show ((3/2:ℝ)^2 + 0^2) = (3/2)^2 by norm_num, Real.sqrt_sq (by norm_num)]
  have hc1 : Real.cos (Real.pi * ((0:ℝ) - 1) / 1) = -1 := by
    rw [show Real.pi * ((0:ℝ) - 1) / 1 = -Real.pi by ring, Real.cos_neg, Real.cos_pi]
  have hc2 : Real.cos (Real.pi * ((3/2:ℝ) - 1) / 1) = 0 := by
    rw [show Real.pi * ((3/2:ℝ) - 1) / 1 = Real.pi / 2 by ring, Real.cos_pi_div_two]
  refine ⟨?_, ?_, by norm_num⟩
  · simp only [compute_circular_or_spherical_mask, radialGrid, compute_mask_at_coordinate,
      List.map_cons, List.map_nil, h0, h32, List.getD_cons_zero, List.getD_cons_succ]
    rw [if_neg (by norm_num), if_neg (by norm_num), if_neg (by norm_num),
      if_neg (by norm_num), hc1, hc2]
    norm_num
  · unfold specCircularMaskValue
    rw [if_neg (by norm_num), if_neg (by norm_num), hc2]
    norm_num
noncomputable section Nufft

open Finset in
/-- Modelled from the spec: the external type-1 non-uniform Fourier transform
primitive (`jax_finufft.nufft1`) is not part of this repository.  Following
the spec's interface and glossary, it evaluates the Fourier sum of the given
weights at the given nonuniform points on the centered frequency grid of
shape `(M1, M2)` (zero frequency at index `(M1//2, M2//2)`) with the sign
convention `iflag = -1`. -/
def nufft1 (M1 M2 : ℕ) (weights : List ℂ) (pts1 pts2 : List ℝ) (i j : ℕ) : ℂ :=
  ∑ p ∈ range weights.length,
    weights.getD p 0 *
      Complex.exp ((-((((i : ℤ) - (M1 : ℤ) / 2 : ℤ) : ℝ) * pts1.getD p 0 +
        (((j : ℤ) - (M2 : ℤ) / 2 : ℤ) : ℝ) * pts2.getD p 0) : ℝ) * Complex.I)

/-- Embedding of `project_with_nufft` (`_nufft_project.py`): take the `x,y`
components of the coordinate list, normalize them into the periodic domain
`2*pi*coord/image_size`, run the type-1 NUFFT at shape `(M1, M2)`, shift the
zero frequency to the corner (`ifftshift`), keep columns `[0, M2//2]`, and
zero the Nyquist column (last column) when `M2` is even and the Nyquist row
`M1//2` when `M1` is even. -/
def project_with_nufft (weights : List ℝ) (coords : List (ℝ × ℝ × ℝ))
    (M1 M2 : ℕ) : List (List ℂ) :=
  let cweights : List ℂ := weights.map Complex.ofReal
  let x : List ℝ := coords.map (fun c => 2 * Real.pi * c.1 / (M1 : ℝ))
  let y : List ℝ := coords.map (fun c => 2 * Real.pi * c.2.1 / (M2 : ℝ))
  let shifted : ℕ → ℕ → ℂ := fun i j =>
    nufft1 M1 M2 cweights y x ((i + M1 / 2) % M1) ((j + M2 / 2) % M2)
  let entry : ℕ → ℕ → ℂ := fun i j =>
    if M1 % 2 = 0 ∧ i = M1 / 2 then 0
    else if M2 % 2 = 0 ∧ j = M2 / 2 then 0
    else shifted i j
  (List.range M1).map (fun i => (List.range (M2 / 2 + 1)).map (fun j => entry i j))

/-- Modelled from the spec: `ImageConfig` (its module is not under `src/`)
carries an unpadded shape, a padded shape at least as large elementwise, and
a pixel size. -/
structure ImageConfig where
  shape : ℕ × ℕ
  padded_shape : ℕ × ℕ
  pixel_size : ℝ

/-- Modelled from the spec: the voxel-cloud potential variant (its module is
not under `src/`) is a weighted point list with a coordinate list and a
voxel size. -/
structure RealVoxelCloudPotential where
  voxel_weights : List ℝ
  coordinate_list : List (ℝ × ℝ × ℝ)
  voxel_size : ℝ

/-- Embedding of `NufftProject.__call__` on the voxel-cloud variant
(`_nufft_project.py`): project the cloud at the config's padded shape, then
rescale the result from the potential's voxel size to the config's pixel
size.  `ImageConfig.rescale_to_pixel_size` is not under `src/`, so the
rescaling primitive is a parameter. -/
def NufftProject_call (rescale : ℝ → ℝ → List (List ℂ) → List (List ℂ))
    (config : ImageConfig) (potential : RealVoxelCloudPotential) :
    List (List ℂ) :=
  rescale potential.voxel_size config.pixel_size
    (project_with_nufft potential.voxel_weights potential.coordinate_list
      config.padded_shape.1 config.padded_shape.2)

lemma getD_range (n i : ℕ) (h : i < n) (d : ℕ) : (List.range n).getD i d = i := by
  rw [List.getD_eq_getElem?_getD, List.getElem?_range h]
  rfl

lemma project_with_nufft_hasShape (weights : List ℝ) (coords : List (ℝ × ℝ × ℝ))
    (M1 M2 : ℕ) :
    HasShape (project_with_nufft weights coords M1 M2) M1 (M2 / 2 + 1) := by
  constructor
  · simp [project_with_nufft]
  · intro r hr
    simp only [project_with_nufft, List.mem_map] at hr
    obtain ⟨i, -, hi⟩ := hr
    simp [← hi]

lemma project_with_nufft_entry (weights : List ℝ) (coords : List (ℝ × ℝ × ℝ))
    (M1 M2 i j : ℕ) (hi : i < M1) (hj : j < M2 / 2 + 1) :
    getEntry (project_with_nufft weights coords M1 M2) i j 0 =
      (if M1 % 2 = 0 ∧ i = M1 / 2 then 0
       else if M2 % 2 = 0 ∧ j = M2 / 2 then 0
       else nufft1 M1 M2 (weights.map Complex.ofReal)
         (coords.map (fun c => 2 * Real.pi * c.2.1 / (M2 : ℝ)))
         (coords.map (fun c => 2 * Real.pi * c.1 / (M1 : ℝ)))
         ((i + M1 / 2) % M1) ((j + M2 / 2) % M2)) := by
  unfold getEntry project_with_nufft
  rw [getD_map _ _ _ (by simpa using hi) [] 0,
    getD_map _ _ _ (by simpa using hj) 0 0, getD_range _ _ (by simpa using hi),
    getD_range _ _ (by simpa using hj)]

end Nufft
/-- C2: half-spectrum Nyquist zeroing — when the second target dimension is even
the last kept column (index `M2//2`) is identically zero, and when the first
is even the Nyquist row `M1//2` is identically zero, for every weight list
and coordinate list. -/
theorem project_with_nufft_nyquist_zero (weights : List ℝ)
    (coords : List (ℝ × ℝ × ℝ)) (M1 M2 : ℕ) :
    (M2 % 2 = 0 → ∀ i, i < M1 →
      getEntry (project_with_nufft weights coords M1 M2) i (M2 / 2) 0 = 0) ∧
    (M1 % 2 = 0 → ∀ j, j < M2 / 2 + 1 →
      getEntry (project_with_nufft weights coords M1 M2) (M1 / 2) j 0 = 0) := by
  constructor
  · intro heven i hi
    rw [project_with_nufft_entry weights coords M1 M2 i (M2 / 2) hi (by omega)]
    by_cases hrow : M1 % 2 = 0 ∧ i = M1 / 2
    · rw [if_pos hrow]
    · rw [if_neg hrow, if_pos ⟨heven, rfl⟩]
  · intro heven j hj
    rcases Nat.eq_zero_or_pos M1 with h0 | h0
    · subst h0
      simp [getEntry, project_with_nufft]
    · rw [project_with_nufft_entry weights coords M1 M2 (M1 / 2) j (by omega) hj,
        if_pos ⟨heven, rfl⟩]

theorem project_with_nufft_nyquist_zero_witness :
    ((2 : ℕ) % 2 = 0 ∧ (0 : ℕ) < 2 ∧ (1 : ℕ) < 2) ∧
      getEntry (project_with_nufft [1] [((0 : ℝ), 0, 0)] 2 2) 0 1 0 = 0 ∧
      getEntry (project_with_nufft [1] [((0 : ℝ), 0, 0)] 2 2) 1 0 0 = 0 :=
  ⟨⟨rfl, by decide, by decide⟩,
    (project_with_nufft_nyquist_zero [1] [((0 : ℝ), 0, 0)] 2 2).1 rfl 0 (by decide),
    (project_with_nufft_nyquist_zero [1] [((0 : ℝ), 0, 0)] 2 2).2 rfl 0 (by decide)⟩
lemma getD_eq_default_of_le (l : List α) (i : ℕ) (h : l.length ≤ i) (d : α) :
    l.getD i d = d := by
  rw [List.getD_eq_getElem?_getD, List.getElem?_eq_none h]
  rfl

open Finset in
lemma nufft1_abs_le (M1 M2 : ℕ) (w : List ℂ) (p1 p2 : List ℝ) (i j : ℕ) :
    Complex.abs (nufft1 M1 M2 w p1 p2 i j) ≤
      ∑ p ∈ range w.length, Complex.abs (w.getD p 0) := by
  refine le_trans (Complex.abs.sum_le _ _) ?_
  apply Finset.sum_le_sum
  intro p hp
  rw [map_mul, Complex.abs_exp_ofReal_mul_I, mul_one]

open Finset in
lemma project_with_nufft_entry_bound (weights : List ℝ)
    (coords : List (ℝ × ℝ × ℝ)) (M1 M2 i j : ℕ) :
    Complex.abs (getEntry (project_with_nufft weights coords M1 M2) i j 0) ≤
      ∑ p ∈ range weights.length, |weights.getD p 0| := by
  have hnonneg : (0 : ℝ) ≤ ∑ p ∈ range weights.length, |weights.getD p 0| :=
    Finset.sum_nonneg fun p _ => abs_nonneg _
  have hconv : ∑ p ∈ range (weights.map Complex.ofReal).length,
      Complex.abs ((weights.map Complex.ofReal).getD p 0) =
      ∑ p ∈ range weights.length, |weights.getD p 0| := by
    rw [List.length_map]
    refine Finset.sum_congr rfl ?_
    intro p hp
    rw [getD_map _ _ _ (Finset.mem_range.mp hp) 0 0, Complex.abs_ofReal]
  by_cases hi : i < M1
  · by_cases hj : j < M2 / 2 + 1
    · rw [project_with_nufft_entry weights coords M1 M2 i j hi hj]
      split_ifs
      · simpa using hnonneg
      · simpa using hnonneg
      · exact le_trans (nufft1_abs_le _ _ _ _ _ _ _) (le_of_eq hconv)
    · unfold getEntry
      rw [getD_eq_default_of_le ((project_with_nufft weights coords M1 M2).getD i []) j
        ?hlen 0]
      · simpa using hnonneg
      case hlen =>
        have hs := project_with_nufft_hasShape weights coords M1 M2
        by_cases hrow : i < (project_with_nufft weights coords M1 M2).length
        · have hmem : (project_with_nufft weights coords M1 M2).getD i [] ∈
              project_with_nufft weights coords M1 M2 := getD_mem_of_lt _ _ hrow []
          rw [hs.2 _ hmem]
          omega
        · rw [getD_eq_default_of_le _ _ (by omega) []]
          simp
  · unfold getEntry
    rw [getD_eq_default_of_le _ _ (by simp [project_with_nufft]; omega) [],
      getD_eq_default_of_le _ _ (by simp) 0]
    simpa using hnonneg

open Finset in
/-- C3: half-spectrum truncation and end-to-end projection — `project_with_nufft`
keeps columns `[0, M2//2]` of the full spectrum, so its output shape is
`(M1, M2//2 + 1)` for every input; and `NufftProject` on a 64x64 config with
pixel size 1 and a flat 10-point all-ones voxel cloud of voxel size 1 yields
a `(64, 33)` half-spectrum whose entries are all bounded by the total weight
`10` (in particular every entry is a well-defined finite complex number).
The external rescaling primitive is any function that is the identity when
the voxel size equals the pixel size. -/
theorem nufft_project_end_to_end
    (rescale : ℝ → ℝ → List (List ℂ) → List (List ℂ))
    (hres : ∀ v img, rescale v v img = img)
    (weights : List ℝ) (coords : List (ℝ × ℝ × ℝ)) (M1 M2 : ℕ) :
    HasShape (project_with_nufft weights coords M1 M2) M1 (M2 / 2 + 1) ∧
    HasShape (NufftProject_call rescale ⟨(64, 64), (64, 64), 1⟩
        ⟨List.replicate 10 1, (List.range 10).map (fun k => ((k : ℝ), 0, 0)), 1⟩)
      64 33 ∧
    ∀ i j, Complex.abs (getEntry (NufftProject_call rescale ⟨(64, 64), (64, 64), 1⟩
        ⟨List.replicate 10 1, (List.range 10).map (fun k => ((k : ℝ), 0, 0)), 1⟩)
      i j 0) ≤ 10 := by
  have hcall : NufftProject_call rescale ⟨(64, 64), (64, 64), 1⟩
      ⟨List.replicate 10 1, (List.range 10).map (fun k => ((k : ℝ), 0, 0)), 1⟩ =
      project_with_nufft (List.replicate 10 1)
        ((List.range 10).map (fun k => ((k : ℝ), 0, 0))) 64 64 := by
    unfold NufftProject_call
    exact hres 1 _
  have hsum : ∑ p ∈ range (List.replicate 10 (1 : ℝ)).length,
      |(List.replicate 10 (1 : ℝ)).getD p 0| = 10 := by
    rw [List.length_replicate]
    rw [Finset.sum_congr rfl (fun p hp => by
      rw [getD_replicate, if_pos (Finset.mem_range.mp hp), abs_one])]
    simp
  refine ⟨project_with_nufft_hasShape weights coords M1 M2, ?_, ?_⟩
  · rw [hcall]
    exact project_with_nufft_hasShape _ _ 64 64
  · intro i j
    rw [hcall]
    calc Complex.abs (getEntry (project_with_nufft (List.replicate 10 1)
          ((List.range 10).map (fun k => ((k : ℝ), 0, 0))) 64 64) i j 0) ≤
        ∑ p ∈ range (List.replicate 10 (1 : ℝ)).length,
          |(List.replicate 10 (1 : ℝ)).getD p 0| :=
        project_with_nufft_entry_bound _ _ 64 64 i j
      _ = 10 := hsum

/-- Witness for `nufft_project_end_to_end`, instantiating the rescaling
primitive with the identity-at-every-ratio function. -/
theorem nufft_project_end_to_end_witness :
    (∀ (v : ℝ) (img : List (List ℂ)),
      (fun (_ _ : ℝ) (img : List (List ℂ)) => img) v v img = img) ∧
    HasShape (NufftProject_call (fun _ _ img => img) ⟨(64, 64), (64, 64), 1⟩
        ⟨List.replicate 10 1, (List.range 10).map (fun k => ((k : ℝ), 0, 0)), 1⟩)
      64 33 :=
  ⟨fun _ _ => rfl,
    (nufft_project_end_to_end (fun _ _ img => img) (fun _ _ => rfl) [] [] 0 0).2.1⟩

noncomputable section GaussianDistribution

/-- Python float-truthiness defaulting used by
`IndependentFourierGaussian.__init__` for `contrast_scale`:
`contrast_scale or jnp.asarray(1.0)` replaces both `None` and the falsy
value `0.0` by `1.0`. -/
def init_contrast_scale (contrast_scale : Option ℝ) : ℝ :=
  match contrast_scale with
  | none => 1
  | some v => if v = 0 then 1 else v

/-- Defaulting used by `IndependentFourierGaussian.__init__` for `variance`:
`variance or Constant(1.0)`: operator objects are truthy, so only `None`
is replaced by the constant unit operator. -/
def init_variance (variance : Option ((ℝ × ℝ) → ℝ)) : (ℝ × ℝ) → ℝ :=
  variance.getD (fun _ => 1)

/-- Embedding of `IndependentFourierGaussian.render`: the contrast scale
times the pipeline's normalized rendering. -/
def IFG_render {ι : Type*} (contrast_scale : ℝ)
    (normalizedPipelineRender : ι → ℝ) : ι → ℝ :=
  fun p => contrast_scale * normalizedPipelineRender p

/-- Complex-image version of `IndependentFourierGaussian.render`
(`get_real=False`), used by `log_likelihood`. -/
def IFG_render_fourier {m n : ℕ} (contrast_scale : ℝ)
    (normalizedPipelineRender : Fin (m + 1) → Fin (n + 1) → ℂ) :
    Fin (m + 1) → Fin (n + 1) → ℂ :=
  fun i j => (contrast_scale : ℂ) * normalizedPipelineRender i j

/-- Per-mode term of `IndependentFourierGaussian.log_likelihood`
(`_gaussian_distributions.py`): with `N_pix` the padded pixel count and
`variance = N_pix * variance_fn`, it is
`(|simulated - observed|^2 / (2*variance) - log(2*pi*variance)/2) / N_pix`
where `simulated` is the distribution's Fourier rendering. -/
def log_likelihood_per_mode {m n : ℕ} (p1 p2 : ℕ)
    (varFn : Fin (m + 1) → Fin (n + 1) → ℝ) (contrast_scale : ℝ)
    (normalizedPipelineRender observed : Fin (m + 1) → Fin (n + 1) → ℂ)
    (i : Fin (m + 1)) (j : Fin (n + 1)) : ℝ :=
  let N_pix : ℝ := ((p1 * p2 : ℕ) : ℝ)
  let variance : ℝ := N_pix * varFn i j
  let residual : ℂ :=
    IFG_render_fourier contrast_scale normalizedPipelineRender i j - observed i j
  (Complex.abs residual ^ 2 / (2 * variance) -
    Real.log (2 * Real.pi * variance) / 2) / N_pix

/-- Embedding of `IndependentFourierGaussian.log_likelihood`: sum the
per-mode terms as the source does — rows `1:` of column `0` once, columns
`1:` twice — and negate once. -/
def log_likelihood {m n : ℕ} (p1 p2 : ℕ)
    (varFn : Fin (m + 1) → Fin (n + 1) → ℝ) (contrast_scale : ℝ)
    (normalizedPipelineRender observed : Fin (m + 1) → Fin (n + 1) → ℂ) : ℝ :=
  -1 * ((∑ i : Fin m, log_likelihood_per_mode p1 p2 varFn contrast_scale
      normalizedPipelineRender observed i.succ 0) +
    2 * ∑ i : Fin (m + 1), ∑ j : Fin n, log_likelihood_per_mode p1 p2 varFn
      contrast_scale normalizedPipelineRender observed i j.succ)

/-- Hermitian-symmetry weight per half-spectrum mode: the DC mode counts 0,
the remaining first-column modes count once, all other columns count twice. -/
def hermitianWeight {m n : ℕ} (i : Fin (m + 1)) (j : Fin (n + 1)) : ℝ :=
  if (j : ℕ) = 0 then (if (i : ℕ) = 0 then 0 else 1) else 2

lemma hermitian_weight_sum {m n : ℕ} (F : Fin (m + 1) → Fin (n + 1) → ℝ) :
    ∑ i : Fin (m + 1), ∑ j : Fin (n + 1), hermitianWeight i j * F i j =
      (∑ i : Fin m, F i.succ 0) +
        2 * ∑ i : Fin (m + 1), ∑ j : Fin n, F i j.succ := by
  have hrow : ∀ i : Fin (m + 1), ∑ j : Fin (n + 1), hermitianWeight i j * F i j =
      hermitianWeight i (0 : Fin (n + 1)) * F i 0 + 2 * ∑ j : Fin n, F i j.succ := by
    intro i
    rw [Fin.sum_univ_succ]
    have h2 : ∀ j : Fin n, hermitianWeight i j.succ * F i j.succ = 2 * F i j.succ := by
      intro j
      rw [show hermitianWeight i j.succ = 2 by simp [hermitianWeight, Fin.val_succ]]
    rw [Finset.sum_congr rfl fun j hj => h2 j, ← Finset.mul_sum]
  rw [Finset.sum_congr rfl fun i hi => hrow i, Finset.sum_add_distrib]
  congr 1
  · simp [Fin.sum_univ_succ, hermitianWeight]
  · rw [Finset.mul_sum]

end GaussianDistribution

/-- C1: the Fourier-space Gaussian log-likelihood equals the negated
Hermitian-weighted sum of the per-mode terms: per mode, squared residual
magnitude over `2*variance` minus `log(2*pi*variance)/2`, divided by the
padded pixel count; weight 0 on the DC mode, 1 on the other first-column
modes, 2 on all modes with column index at least 1; one final negation. -/
theorem log_likelihood_hermitian_weighted (m n p1 p2 : ℕ)
    (varFn : Fin (m + 1) → Fin (n + 1) → ℝ) (contrast_scale : ℝ)
    (normalizedPipelineRender observed : Fin (m + 1) → Fin (n + 1) → ℂ) :
    log_likelihood p1 p2 varFn contrast_scale normalizedPipelineRender observed =
      -∑ i : Fin (m + 1), ∑ j : Fin (n + 1), hermitianWeight i j *
        ((Complex.abs (IFG_render_fourier contrast_scale normalizedPipelineRender i j -
            observed i j) ^ 2 / (2 * (((p1 * p2 : ℕ) : ℝ) * varFn i j)) -
          Real.log (2 * Real.pi * (((p1 * p2 : ℕ) : ℝ) * varFn i j)) / 2) /
            ((p1 * p2 : ℕ) : ℝ)) := by
  rw [hermitian_weight_sum (fun i j => (Complex.abs (IFG_render_fourier contrast_scale
    normalizedPipelineRender i j - observed i j) ^ 2 /
      (2 * (((p1 * p2 : ℕ) : ℝ) * varFn i j)) -
    Real.log (2 * Real.pi * (((p1 * p2 : ℕ) : ℝ) * varFn i j)) / 2) /
      ((p1 * p2 : ℕ) : ℝ))]
  unfold log_likelihood log_likelihood_per_mode
  ring

/-- C10: a `contrast_scale` of `0.0` is falsy in Python, so the `or`-defaulting of
`IndependentFourierGaussian.__init__` silently replaces it by `1.0`: the
distribution then renders the unit-scaled pipeline rendering, not the
all-zero image a zero contrast scale would give; the same defaulting
installs the constant unit variance when `variance` is `None`. -/
theorem contrast_scale_zero_swallowed {ι : Type*}
    (normalizedPipelineRender : ι → ℝ) :
    init_contrast_scale (some 0) = 1 ∧
    IFG_render (init_contrast_scale (some 0)) normalizedPipelineRender =
      normalizedPipelineRender ∧
    IFG_render 0 normalizedPipelineRender = (fun _ => 0) ∧
    init_variance none = fun _ => 1 := by
  refine ⟨?_, ?_, ?_, rfl⟩
  · simp [init_contrast_scale]
  · funext p
    simp [IFG_render, init_contrast_scale]
  · funext p
    simp [IFG_render]

section Pipeline

variable {CI RI : Type*}

/-- Abstraction of `ImagePipeline` (`simulator/image.py`) for the view step:
its filter list (Fourier-space operators), mask list (real-space operators),
the config's crop, and the Fourier transform pair consumed from the utils
module. -/
structure ImagePipeline (CI RI : Type*) where
  filters : List (CI → CI)
  masks : List (RI → RI)
  crop : RI → RI
  fftn : RI → CI
  irfftn : CI → RI

/-- Embedding of `ImagePipeline.filter`: apply the filters in order. -/
def pipelineFilter (P : ImagePipeline CI RI) (image : CI) : CI :=
  P.filters.foldl (fun img f => f img) image

/-- Embedding of `ImagePipeline.mask`: apply the masks in order. -/
def pipelineMask (P : ImagePipeline CI RI) (image : RI) : RI :=
  P.masks.foldl (fun img m => m img) image

/-- Embedding of `ImagePipeline.view` with `real=False`: the image enters in
Fourier space; filters are applied, the image is moved to real space, then
cropped, then masked. -/
def view_fourier (P : ImagePipeline CI RI) (image : CI) : RI :=
  let filtered := P.irfftn (pipelineFilter P image)
  pipelineMask P (P.crop filtered)

/-- Embedding of `ImagePipeline.view` with `real=True`: when the filter list
is nonempty the image round-trips through Fourier space for filtering, then
is cropped and masked. -/
def view_real (P : ImagePipeline CI RI) (image : RI) : RI :=
  let filtered :=
    if P.filters.isEmpty then image
    else P.irfftn (pipelineFilter P (P.fftn image))
  pipelineMask P (P.crop filtered)

/-- C9: the view step is exactly mask-after-crop-after-filter, in both modes:
Fourier-space filters are applied before the crop and the real-space masks
after it. -/
theorem view_filter_crop_mask_order (P : ImagePipeline CI RI) :
    (∀ image : CI, view_fourier P image =
      pipelineMask P (P.crop (P.irfftn (pipelineFilter P image)))) ∧
    (∀ image : RI, P.filters ≠ [] → view_real P image =
      pipelineMask P (P.crop (P.irfftn (pipelineFilter P (P.fftn image))))) ∧
    (∀ image : RI, P.filters = [] → view_real P image =
      pipelineMask P (P.crop image)) := by
  refine ⟨fun image => rfl, fun image hne => ?_, fun image hnil => ?_⟩
  · unfold view_real
    rw [if_neg (by simpa using hne)]
  · unfold view_real
    rw [if_pos (by simpa using hnil)]

/-- Witness for `view_filter_crop_mask_order` on a concrete one-filter
pipeline over natural-number images, discharging the nonempty-filter
hypothesis of the `real=True` branch. -/
theorem view_filter_crop_mask_order_witness :
    ([fun k : ℕ => k + 1] ≠ ([] : List (ℕ → ℕ))) ∧
    view_real (ImagePipeline.mk [fun k : ℕ => k + 1] [fun k : ℕ => 2 * k]
        (fun k : ℕ => k) (fun k : ℕ => k) (fun k : ℕ => k)) 0 =
      pipelineMask (ImagePipeline.mk [fun k : ℕ => k + 1] [fun k : ℕ => 2 * k]
        (fun k : ℕ => k) (fun k : ℕ => k) (fun k : ℕ => k))
        ((fun k : ℕ => k)
          ((fun k : ℕ => k)
            (pipelineFilter (ImagePipeline.mk [fun k : ℕ => k + 1]
              [fun k : ℕ => 2 * k] (fun k : ℕ => k) (fun k : ℕ => k)
              (fun k : ℕ => k))
              ((fun k : ℕ => k) 0)))) := by
  refine ⟨by simp, ?_⟩
  exact (view_filter_crop_mask_order (ImagePipeline.mk [fun k : ℕ => k + 1]
    [fun k : ℕ => 2 * k] (fun k : ℕ => k) (fun k : ℕ => k)
    (fun k : ℕ => k))).2.1 0 (by simp)

end Pipeline

/-- C5 counterexample (the claim as stated): padding and re-cropping is not
the identity for every strictly larger target shape: padding the 1x1 image
`[[1]]` to the strictly larger even shape `(2, 2)` and center-cropping back
to `(1, 1)` yields `[[0]]`, not the original image — the crop window shifts
by one when the padded dimension's parity differs from the original's. -/
theorem crop_pad_round_trip_cex :
    crop_to_shape (pad_to_shape [[(1 : ℤ)]] 2 2 0) 1 1 ≠ [[(1 : ℤ)]] := by
  decide

/-- Witness for `crop_pad_round_trip` on the 1x1 image `[[5]]` padded to the
odd shape `(3, 3)`. -/
theorem crop_pad_round_trip_witness :
    (HasShape [[(5 : ℤ)]] 1 1 ∧ Odd 1 ∧ Odd 3 ∧ 1 < 3) ∧
      crop_to_shape (pad_to_shape [[(5 : ℤ)]] 3 3 0) 1 1 = [[(5 : ℤ)]] :=
  ⟨⟨⟨rfl, by decide⟩, ⟨0, by norm_num⟩, ⟨1, by norm_num⟩, by decide⟩,
    crop_pad_round_trip [[(5 : ℤ)]] 1 3 3 0 ⟨rfl, by decide⟩ ⟨0, by norm_num⟩
      ⟨1, by norm_num⟩ ⟨1, by norm_num⟩ (by decide) (by decide)⟩

/-- Witness for `resize_mixed_entry` on a 2x4 image resized to 4x2 (axis 1
grows, axis 2 shrinks), at output pixel `(1, 0)`. -/
theorem resize_mixed_entry_witness :
    (HasShape [[(1 : ℤ), 2, 3, 4], [5, 6, 7, 8]] 2 4 ∧ 2 < 4) ∧
      (getEntry (resize_with_crop_or_pad [[(1 : ℤ), 2, 3, 4], [5, 6, 7, 8]] 4 2 0)
          1 0 0 = 0 ∨
        ∃ i2 j2, i2 < 2 ∧ 4 / 2 - 2 / 2 ≤ j2 ∧ j2 < 4 / 2 - 2 / 2 + 2 ∧
          getEntry (resize_with_crop_or_pad [[(1 : ℤ), 2, 3, 4], [5, 6, 7, 8]] 4 2 0)
              1 0 0 =
            getEntry [[(1 : ℤ), 2, 3, 4], [5, 6, 7, 8]] i2 j2 0) :=
  ⟨⟨⟨rfl, by decide⟩, by decide⟩,
    (resize_mixed_entry [[(1 : ℤ), 2, 3, 4], [5, 6, 7, 8]] 2 4 4 2 0
      ⟨rfl, by decide⟩).1 (by decide) (by decide) 1 0 (by decide) (by decide)⟩

/-- Witness for `crop_with_center_graceful` on a 2x2 image with the center
placed at the corner pixel `(0, 0)`: the warning flag is the shape-mismatch
test. -/
theorem crop_with_center_graceful_witness :
    ((0 : ℕ) < 2 ∧ (0 : ℕ) < 2) ∧
      ((crop_to_shape_with_center [[(1 : ℤ), 2], [3, 4]] 2 2 0 0).2 = true ↔
        ¬(nRows (crop_to_shape_with_center [[(1 : ℤ), 2], [3, 4]] 2 2 0 0).1 = 2 ∧
          nCols (crop_to_shape_with_center [[(1 : ℤ), 2], [3, 4]] 2 2 0 0).1 = 2)) :=
  ⟨⟨by decide, by decide⟩,
    (crop_with_center_graceful [[(1 : ℤ), 2], [3, 4]] 2 2 2 2 0 0 ⟨rfl, by decide⟩
      (by decide) (by decide)).2.2.2.2.2⟩

end Cryojax
